import Mathlib

/-!
Verification of the chatbot-api repository's core pipeline: the text
chunker (`splitTextIntoChunks` in src/lib/openai.js), the similarity
ranker (`MongoStorage.searchSimilarChunks`), document deletion with chunk
cascade (`MongoStorage.deleteDocument`), the chat-turn orchestration
(`/api/chat` route handler together with `generateChatResponse`), and the
upload processing flow (`processFile`).

Strings are modelled as `List Char`; JavaScript string indices are
modelled as `Int` (JS arithmetic on positions may go negative), with the
clamping behaviour of `String.prototype.indexOf` and
`String.prototype.substring` reproduced explicitly.  The chunker's
`while` loop is modelled with explicit fuel, returning `none` when the
fuel is exhausted before the loop exits, so that termination and
non-termination are both expressible.
-/

namespace Chatbot

/-- `matchAt text pat i` holds when `pat` occurs in `text` at index `i`
(JS: `text.startsWith(pat, i)`, the primitive underlying `indexOf`). -/
def matchAt (text pat : List Char) (i : Nat) : Bool :=
  pat.isPrefixOf (text.drop i)

/-- Structural worker for `findFrom`: `n` bounds the number of remaining
scan positions, so the recursion is structural and computes by `decide`. -/
def findFromAux (text pat : List Char) : Nat → Nat → Option Nat
  | 0, _ => none
  | n + 1, i =>
    if i ≤ text.length then
      if matchAt text pat i then some i
      else findFromAux text pat n (i + 1)
    else none

/-- First index `j ≥ i` at which `pat` occurs in `text`, scanning upward as
`String.prototype.indexOf` does; `none` when there is no such occurrence. -/
def findFrom (text pat : List Char) (i : Nat) : Option Nat :=
  findFromAux text pat (text.length + 1 - i) i

theorem findFrom_eq (text pat : List Char) (i : Nat) :
    findFrom text pat i =
      if i ≤ text.length then
        if matchAt text pat i then some i else findFrom text pat (i + 1)
      else none := by
  unfold findFrom
  by_cases hi : i ≤ text.length
  · have h1 : text.length + 1 - i = (text.length - i) + 1 := by omega
    have h2 : text.length + 1 - (i + 1) = text.length - i := by omega
    rw [h1, h2, findFromAux, if_pos hi]
  · have h1 : text.length + 1 - i = 0 := by omega
    rw [h1, findFromAux, if_neg hi]

/-- JS `text.indexOf(pat, start)`: the fromIndex is clamped below at 0
(`Int.toNat` does exactly that); the result is the occurrence index or −1. -/
def jsIndexOf (text pat : List Char) (start : Int) : Int :=
  match findFrom text pat start.toNat with
  | some i => (i : Int)
  | none => -1

/-- JS `text.substring(a, b)`: both arguments clamped into `[0, length]`,
swapped when out of order, then the slice is taken. -/
def jsSubstring (text : List Char) (a b : Int) : List Char :=
  let len : Int := text.length
  let a2 : Nat := (min (max a 0) len).toNat
  let b2 : Nat := (min (max b 0) len).toNat
  (text.drop (min a2 b2)).take (max a2 b2 - min a2 b2)

/-- The paragraph-break pattern `"\n\n"` searched for by the chunker. -/
def paraPat : List Char := ['\n', '\n']

/-- The sentence-terminator pattern `". "` searched for by the chunker. -/
def sentPat : List Char := ['.', ' ']

/-- The end-cursor computation of one iteration of `splitTextIntoChunks`
(src/lib/openai.js lines 192–211): propose `startPos + chunkSize`, snap to a
paragraph break or sentence end when the proposal lies strictly before the
text's end, then clamp to the text length. -/
def chunkEnd (text : List Char) (chunkSize startPos : Int) : Int :=
  let len : Int := text.length
  let endPos0 := startPos + chunkSize
  let endPos1 :=
    if endPos0 < len then
      let paragraphEnd := jsIndexOf text paraPat (endPos0 - 100)
      if paragraphEnd ≠ -1 ∧ paragraphEnd < endPos0 + 100 then paragraphEnd
      else
        let sentenceEnd := jsIndexOf text sentPat (endPos0 - 100)
        if sentenceEnd ≠ -1 ∧ sentenceEnd < endPos0 + 50 then sentenceEnd + 1
        else endPos0
    else endPos0
  min endPos1 len

/-- The `while (startPos < text.length)` loop of `splitTextIntoChunks`
(src/lib/openai.js lines 191–224), with explicit fuel: each iteration emits
`text.substring(startPos, endPos)`, advances `startPos` to `endPos - overlap`,
and breaks when `startPos >= text.length || endPos === text.length`.
`none` means the fuel ran out with the loop still running. -/
def splitLoop (text : List Char) (chunkSize overlap : Int) :
    Nat → Int → Option (List (List Char))
  | 0, startPos => if startPos < (text.length : Int) then none else some []
  | fuel + 1, startPos =>
    if startPos < (text.length : Int) then
      let endPos := chunkEnd text chunkSize startPos
      let chunk := jsSubstring text startPos endPos
      let nextStart := endPos - overlap
      if nextStart ≥ (text.length : Int) ∨ endPos = (text.length : Int) then
        some [chunk]
      else
        match splitLoop text chunkSize overlap fuel nextStart with
        | none => none
        | some rest => some (chunk :: rest)
    else some []

/-- `splitTextIntoChunks(text, chunkSize, overlap)` (src/lib/openai.js
lines 187–227), fuelled. -/
def splitTextIntoChunks (text : List Char) (chunkSize overlap : Int)
    (fuel : Nat) : Option (List (List Char)) :=
  splitLoop text chunkSize overlap fuel 0

/-- Concrete input on which `splitTextIntoChunks` loops forever with
`chunkSize = 50 > overlap = 0`: ten `a`s, a paragraph break at index 10,
then 49 `b`s (length 61).  Every iteration after the first snaps the end
back to the break at index 10 and the start cursor never advances. -/
def cexC1 : List Char :=
  List.replicate 10 'a' ++ paraPat ++ List.replicate 49 'b'

/-- Least index `p ≥ start` (clamped below by 0) at which `pat` occurs in
`text`, written declaratively as the head of the ascending list of all
occurrence positions.  Used to characterise what `indexOf` computes. -/
def leastOccurGE (text pat : List Char) (start : Int) : Option Nat :=
  ((List.range (text.length + 1)).filter
    (fun p : Nat => decide (start ≤ (p : Int)) && matchAt text pat p)).head?

/-- The occurrence of `pat` inside the window `[lo, hi]` that is nearest to
`center` (ties broken toward the smaller index).  This renders the claim's
words "the nearest paragraph break within end±100". -/
def nearestOccurIn (text pat : List Char) (lo hi center : Int) : Option Nat :=
  ((List.range (text.length + 1)).filter
      (fun p : Nat => decide (lo ≤ (p : Int)) && decide ((p : Int) ≤ hi) &&
        matchAt text pat p)).foldl
    (fun best p =>
      match best with
      | none => some p
      | some b => if |(p : Int) - center| < |(b : Int) - center| then some p
          else some b)
    none

/-- The end-cursor rule as the claim words it: snap to the NEAREST paragraph
break within `end±100` if one exists, else to just after a sentence
terminator within `[end−100, end+50]` if one exists, then clamp. -/
def claimEnd (text : List Char) (chunkSize startPos : Int) : Int :=
  let len : Int := text.length
  let e0 := startPos + chunkSize
  let e1 :=
    if e0 < len then
      match nearestOccurIn text paraPat (e0 - 100) (e0 + 100) e0 with
      | some p => (p : Int)
      | none =>
        match nearestOccurIn text sentPat (e0 - 100) (e0 + 50) e0 with
        | some q => (q : Int) + 1
        | none => e0
    else e0
  min e1 len

/-- The end-cursor rule the code actually implements, written declaratively:
snap to the FIRST paragraph break at or after `end−100`, provided it lies
strictly before `end+100`; otherwise to just after the first `". "` at or
after `end−100`, provided it lies strictly before `end+50`; then clamp. -/
def amendEnd (text : List Char) (chunkSize startPos : Int) : Int :=
  let len : Int := text.length
  let e0 := startPos + chunkSize
  let sentSnap : Int :=
    match leastOccurGE text sentPat (e0 - 100) with
    | some q => if (q : Int) < e0 + 50 then (q : Int) + 1 else e0
    | none => e0
  let e1 :=
    if e0 < len then
      match leastOccurGE text paraPat (e0 - 100) with
      | some p => if (p : Int) < e0 + 100 then (p : Int) else sentSnap
      | none => sentSnap
    else e0
  min e1 len

/-- Concrete input refuting the "nearest" reading of the boundary snap:
paragraph breaks at indices 50 and 149, proposed end 150 (chunkSize 150,
start 0).  The break at 149 is nearest to the proposed end, but the code
snaps to 50, the first break at or after `end − 100 = 50`. -/
def cexC3 : List Char :=
  List.replicate 50 'a' ++ paraPat ++ List.replicate 97 'b' ++ paraPat ++
    List.replicate 109 'c'

/-- The cursor discipline of the chunker as the claim states it: each chunk
is the substring `[start, end)` for the current start cursor, and the next
chunk's start is `end − overlap`. -/
def CursorChain (text : List Char) (chunkSize overlap : Int) :
    Int → List (List Char) → Prop
  | _, [] => True
  | s, c :: rest =>
    c = jsSubstring text s (chunkEnd text chunkSize s) ∧
      CursorChain text chunkSize overlap (chunkEnd text chunkSize s - overlap)
        rest

/-- Concatenation of consecutive chunks' non-overlapping portions: the first
chunk whole, then every later chunk with its first `overlap` characters
dropped. -/
def reconstruct (overlap : Int) : List (List Char) → List Char
  | [] => []
  | c :: rest => c ++ (rest.map (List.drop overlap.toNat)).flatten

/-- `Document` (src/models/Document.js): name, type tag, byte size,
creation timestamp, plus the Mongo `_id` modelled as a `Nat`. -/
structure Document where
  id : Nat
  name : List Char
  dtype : List Char
  size : Nat
  createdAt : Nat
deriving DecidableEq

/-- `DocumentChunk` (src/models/DocumentChunk.js): owning document
reference, text content, optional embedding vector (`null` until the
asynchronous embedding write lands, modelled as `none`), creation
timestamp. -/
structure DocumentChunk where
  documentId : Nat
  content : List Char
  embedding : Option (List ℚ)
  createdAt : Nat
deriving DecidableEq

/-- `Message`: a turn in the single global conversation. -/
structure Message where
  role : List Char
  content : List Char
  createdAt : Nat
deriving DecidableEq

/-- The MongoDB state behind `MongoStorage` (src/unnamed/part_001):
the three collections, a fresh-id counter for documents and a clock
supplying `createdAt` timestamps for messages. -/
structure Store where
  nextId : Nat
  documents : List Document
  chunks : List DocumentChunk
  messages : List Message
  clock : Nat
deriving DecidableEq

/-- `MongoStorage.deleteDocument` (src/unnamed/part_001 lines 66–78):
`findByIdAndDelete` removes the document with the given id and yields
`false` without touching chunks when no such document exists; otherwise
`deleteMany({ documentId: id })` removes every chunk owned by it and the
call yields `true`. -/
def deleteDocument (st : Store) (id : Nat) : Bool × Store :=
  if st.documents.any (fun d => d.id == id) then
    (true,
      { st with
        documents := st.documents.eraseP (fun d => d.id == id),
        chunks := st.chunks.filter (fun c => !(c.documentId == id)) })
  else (false, st)

/-- Descending insertion by similarity score, modelling the stable
`chunksWithScores.sort((a, b) => b.similarity - a.similarity)`. -/
def scoreInsert (x : DocumentChunk × ℚ) :
    List (DocumentChunk × ℚ) → List (DocumentChunk × ℚ)
  | [] => [x]
  | y :: t => if y.2 ≤ x.2 then x :: y :: t else y :: scoreInsert x t

def scoreSort (l : List (DocumentChunk × ℚ)) : List (DocumentChunk × ℚ) :=
  l.foldr scoreInsert []

/-- `MongoStorage.searchSimilarChunks` (src/unnamed/part_001 lines
119–138): fetch every chunk whose embedding is present
(`embedding: { $ne: null }`), score each against the query embedding,
sort descending by similarity, truncate to `limit`, return the chunks.
`calculateCosineSimilarity` lives in src/lib/utils.js which is not among
the provided sources, so the similarity function `sim` is a parameter. -/
def searchSimilarChunks (sim : List ℚ → List ℚ → ℚ) (st : Store)
    (embedding : List ℚ) (limit : Nat) : List DocumentChunk :=
  let chunks := st.chunks.filter (fun c => c.embedding.isSome)
  let chunksWithScores :=
    chunks.map (fun c => (c, sim embedding (c.embedding.getD [])))
  let sorted := scoreSort chunksWithScores
  (sorted.take limit).map (fun item => item.1)

/-- `MongoStorage.createMessage`: persist a message; `createdAt` defaults to
the current time (the store's clock). -/
def createMessage (st : Store) (role content : List Char) : Store :=
  { st with
    messages := st.messages ++ [⟨role, content, st.clock⟩],
    clock := st.clock + 1 }

/-- Stable ascending insertion by `createdAt`, modelling
`Message.find().sort({ createdAt: 1 })`. -/
def msgInsert (m : Message) : List Message → List Message
  | [] => [m]
  | y :: t => if m.createdAt ≤ y.createdAt then m :: y :: t
      else y :: msgInsert m t

/-- `MongoStorage.getMessages` (src/unnamed/part_001 lines 154–156). -/
def getMessages (st : Store) : List Message :=
  st.messages.foldr msgInsert []

/-- The strict grounding system instruction of `generateChatResponse`
(src/lib/openai.js line 41), used when at least one chunk was retrieved. -/
def strictHeader : List Char :=
  ("IMPORTANT: You are Stephen, a document-based support assistant. You must ONLY answer based on the document excerpts provided below. If the answer cannot be found in these excerpts, explicitly state that you cannot answer based on the available documents. Do NOT use any external knowledge.\n\n").toList

/-- The zero-chunk system instruction of `generateChatResponse`
(src/lib/openai.js line 46). -/
def noDocsInstruction : List Char :=
  ("You are Stephen, a document-based support assistant. You can ONLY answer questions based on uploaded document content. If no relevant documents have been uploaded or if the documents don't contain the necessary information, politely explain that you can only provide answers based on uploaded documents and cannot use external knowledge.").toList

/-- The label prepended to the `i`-th excerpt:
`Document excerpt ${i+1}:\n` (the caller passes `i + 1`). -/
def excerptPre (i : Nat) : List Char :=
  ("Document excerpt ").toList ++ (Nat.repr i).toList ++ (":\n").toList

/-- The `contextChunks.forEach((chunk, i) => ...)` accumulation of
src/lib/openai.js lines 42–44, with the running index made explicit. -/
def excerpts (i : Nat) : List DocumentChunk → List Char
  | [] => []
  | c :: rest =>
    excerptPre (i + 1) ++ c.content ++ ("\n\n").toList ++ excerpts (i + 1) rest

/-- The `contextText` computed by `generateChatResponse`
(src/lib/openai.js lines 37–47). -/
def contextText (chunks : List DocumentChunk) : List Char :=
  if chunks.length > 0 then strictHeader ++ excerpts 0 chunks
  else noDocsInstruction

def systemRole : List Char := ("system").toList

/-- The message array `generateChatResponse` sends to the model
(src/lib/openai.js lines 49–55): the system message first, then the
caller-supplied conversation. -/
def formattedMessages (chunks : List DocumentChunk)
    (messages : List (List Char × List Char)) : List (List Char × List Char) :=
  (systemRole, contextText chunks) :: messages

/-- One `/api/chat` turn (src/unnamed/part_000 lines 92–143).  The two
external calls are oracle parameters: `embedResult` is what
`generateEmbedding` resolves to (`none` = it threw), `genResult` what
`generateChatResponse` resolves to.  Returns the updated store and the
assistant reply, `none` when the turn failed (handler `catch` → 500). -/
def chatTurn (sim : List ℚ → List ℚ → ℚ) (embedResult : Option (List ℚ))
    (genResult : Option (List Char)) (st : Store) (content : List Char) :
    Store × Option (List Char) :=
  if content = [] then (st, none)
  else
    let st1 := createMessage st ("user").toList content
    match embedResult with
    | none => (st1, none)
    | some embedding =>
      let _similarChunks := searchSimilarChunks sim st1 embedding 5
      match genResult with
      | none => (st1, none)
      | some reply => (createMessage st1 ("assistant").toList reply, some reply)

/-- JS `String.prototype.trim()` is empty exactly when every character is
whitespace; this models the `if (!chunkText.trim()) continue` filter. -/
def isWsChar (c : Char) : Bool :=
  c == ' ' || c == '\n' || c == '\t' || c == '\r'

/-- `processDocumentChunks` (src/lib/openai.js lines 144–178): chunk the
text with `chunkSize = 1000`, `overlap = 200`, persist each non-blank chunk
with no embedding yet (the embedding is filled in by a detached background
task, which is not part of this synchronous state).  Outer `none` = the
chunker ran out of fuel (the real loop would still be running). -/
def processDocumentChunks (documentId : Nat) (text : List Char) (fuel : Nat)
    (st : Store) : Option Store :=
  match splitTextIntoChunks text 1000 200 fuel with
  | none => none
  | some chunks =>
    some (chunks.foldl
      (fun acc chunkText =>
        if chunkText.all isWsChar then acc
        else
          { acc with
            chunks := acc.chunks ++ [⟨documentId, chunkText, none, 0⟩] })
      st)

def validExtensions : List (List Char) :=
  [(".pdf").toList, (".docx").toList, (".txt").toList, (".md").toList]

/-- `processFile` (src/lib/openai.js lines 89–137): extract text according
to the lower-cased extension (any extension outside pdf/docx/txt/md throws
`Unsupported file type` before anything is persisted), then create the
Document, chunk the text, and remove the temporary upload file; on any
throw the catch block removes the temporary file and rethrows.
`extractResult` is the oracle for the pdf/docx/txt/md extractors (`none` =
the extractor threw).  Result: `some (doc?, store, tempRemoved)` where
`doc? = none` means the upload failed. -/
def processFile (extractResult : Option (List Char)) (fuel : Nat)
    (ext name : List Char) (fsize : Nat) (st : Store) :
    Option (Option Document × Store × Bool) :=
  let extracted : Option (List Char) :=
    if validExtensions.contains ext then extractResult else none
  match extracted with
  | none => some (none, st, true)
  | some text =>
    let doc : Document :=
      ⟨st.nextId, name, (ext.drop 1).map Char.toUpper, fsize, 0⟩
    let st1 :=
      { st with nextId := st.nextId + 1, documents := st.documents ++ [doc] }
    match processDocumentChunks doc.id text fuel st1 with
    | none => none
    | some st2 => some (some doc, st2, true)

theorem matchAt_length {text pat : List Char} {i : Nat} (hp : pat ≠ [])
    (h : matchAt text pat i = true) : i + pat.length ≤ text.length := by
  unfold matchAt at h
  have hlen : pat.length ≤ (text.drop i).length := by
    clear hp
    generalize text.drop i = rest at h
    induction pat generalizing rest with
    | nil => simp
    | cons a as ih =>
      cases rest with
      | nil => simp at h
      | cons b bs =>
        rw [List.isPrefixOf_cons₂] at h
        simp only [Bool.and_eq_true] at h
        have := ih bs h.2
        simpa using Nat.succ_le_succ this
  rw [List.length_drop] at hlen
  by_cases hi : i ≤ text.length
  · omega
  · cases pat with
    | nil => exact absurd rfl hp
    | cons a as =>
      exfalso
      rw [List.drop_eq_nil_of_le (by omega)] at h
      simp at h

theorem findFrom_sound_aux (text pat : List Char) :
    ∀ n i j, text.length + 1 - i ≤ n → findFrom text pat i = some j →
      i ≤ j ∧ j ≤ text.length ∧ matchAt text pat j = true ∧
        ∀ k, i ≤ k → k < j → matchAt text pat k = false := by
  intro n
  induction n with
  | zero =>
    intro i j hn h
    rw [findFrom_eq, if_neg (by omega)] at h
    exact absurd h (by simp)
  | succ n ih =>
    intro i j hn h
    rw [findFrom_eq] at h
    by_cases hi : i ≤ text.length
    · rw [if_pos hi] at h
      by_cases hm : matchAt text pat i
      · rw [if_pos hm] at h
        cases h
        exact ⟨le_refl _, hi, hm, fun k hk1 hk2 => absurd hk1 (by omega)⟩
      · rw [if_neg hm] at h
        have hrec := ih (i + 1) j (by omega) h
        refine ⟨by omega, hrec.2.1, hrec.2.2.1, ?_⟩
        intro k hk1 hk2
        rcases Nat.eq_or_lt_of_le hk1 with rfl | hk1'
        · exact Bool.eq_false_iff.mpr hm
        · exact hrec.2.2.2 k hk1' hk2
    · rw [if_neg hi] at h
      exact absurd h (by simp)

theorem findFrom_sound (text pat : List Char) {i j : Nat}
    (h : findFrom text pat i = some j) :
    i ≤ j ∧ j ≤ text.length ∧ matchAt text pat j = true ∧
      ∀ k, i ≤ k → k < j → matchAt text pat k = false :=
  findFrom_sound_aux text pat (text.length + 1 - i) i j (le_refl _) h

theorem findFrom_none_aux (text pat : List Char) (hp : pat ≠ []) :
    ∀ n i, text.length + 1 - i ≤ n → findFrom text pat i = none →
      ∀ k, i ≤ k → matchAt text pat k = false := by
  intro n
  induction n with
  | zero =>
    intro i hn h k hk
    apply Bool.eq_false_iff.mpr
    intro hm
    have := matchAt_length hp hm
    omega
  | succ n ih =>
    intro i hn h k hk
    rw [findFrom_eq] at h
    by_cases hi : i ≤ text.length
    · rw [if_pos hi] at h
      by_cases hm : matchAt text pat i
      · rw [if_pos hm] at h; exact absurd h (by simp)
      · rw [if_neg hm] at h
        rcases Nat.eq_or_lt_of_le hk with rfl | hk'
        · exact Bool.eq_false_iff.mpr hm
        · exact ih (i + 1) (by omega) h k hk'
    · apply Bool.eq_false_iff.mpr
      intro hm
      have := matchAt_length hp hm
      omega

theorem findFrom_none (text pat : List Char) (hp : pat ≠ []) {i : Nat}
    (h : findFrom text pat i = none) {k : Nat} (hk : i ≤ k) :
    matchAt text pat k = false :=
  findFrom_none_aux text pat hp (text.length + 1 - i) i (le_refl _) h k hk


theorem jsIndexOf_spec (text pat : List Char) (f : Int)
    (h : jsIndexOf text pat f ≠ -1) :
    0 ≤ jsIndexOf text pat f ∧ f ≤ jsIndexOf text pat f ∧
      jsIndexOf text pat f ≤ (text.length : Int) ∧
      matchAt text pat (jsIndexOf text pat f).toNat = true ∧
      ∀ k : Nat, f ≤ (k : Int) → (k : Int) < jsIndexOf text pat f →
        matchAt text pat k = false := by
  unfold jsIndexOf at h ⊢
  cases hf : findFrom text pat f.toNat with
  | none => rw [hf] at h; simp at h
  | some j =>
    rw [hf] at h
    dsimp only at h ⊢
    obtain ⟨h1, h2, h3, h4⟩ := findFrom_sound text pat hf
    refine ⟨by positivity, ?_, by exact_mod_cast h2, by simpa using h3, ?_⟩
    · calc f ≤ (f.toNat : Int) := Int.self_le_toNat f
        _ ≤ (j : Int) := by exact_mod_cast h1
    · intro k hk1 hk2
      apply h4
      · rcases le_or_lt 0 f with hf0 | hf0
        · have : (f.toNat : Int) ≤ (k : Int) := by
            rwa [Int.toNat_of_nonneg hf0]
          exact_mod_cast this
        · have : f.toNat = 0 := Int.toNat_of_nonpos (le_of_lt hf0)
          omega
      · exact_mod_cast hk2

theorem jsIndexOf_min (text pat : List Char) (hp : pat ≠ []) (f : Int)
    {k : Nat} (hm : matchAt text pat k = true) (hk : f ≤ (k : Int)) :
    jsIndexOf text pat f ≠ -1 ∧ jsIndexOf text pat f ≤ (k : Int) := by
  have hfk : f.toNat ≤ k := by
    rcases le_or_lt 0 f with hf0 | hf0
    · have : (f.toNat : Int) ≤ (k : Int) := by rwa [Int.toNat_of_nonneg hf0]
      exact_mod_cast this
    · have : f.toNat = 0 := Int.toNat_of_nonpos (le_of_lt hf0)
      omega
  unfold jsIndexOf
  cases hf : findFrom text pat f.toNat with
  | none =>
    exfalso
    have := findFrom_none text pat hp hf hfk
    rw [hm] at this
    exact Bool.true_eq_false.mp this
  | some j =>
    obtain ⟨h1, h2, h3, h4⟩ := findFrom_sound text pat hf
    constructor
    · intro hc
      have : (j : Int) = -1 := hc
      omega
    · by_contra hc
      push_neg at hc
      have hkj : k < j := by exact_mod_cast hc
      have := h4 k hfk hkj
      rw [hm] at this
      exact Bool.true_eq_false.mp this

theorem chunkEnd_le_length (text : List Char) (chunkSize startPos : Int) :
    chunkEnd text chunkSize startPos ≤ (text.length : Int) := by
  unfold chunkEnd
  exact min_le_right _ _

theorem chunkEnd_upper (text : List Char) (chunkSize startPos : Int) :
    chunkEnd text chunkSize startPos ≤ startPos + chunkSize + 99 := by
  simp only [chunkEnd]
  split_ifs with h1 h2 h3
  · exact le_trans (min_le_left _ _) (by have := h2.2; omega)
  · exact le_trans (min_le_left _ _) (by have := h3.2; omega)
  · exact le_trans (min_le_left _ _) (by omega)
  · exact le_trans (min_le_left _ _) (by omega)

theorem chunkEnd_cases (text : List Char) (chunkSize startPos : Int)
    (h : startPos + chunkSize < (text.length : Int)) :
    chunkEnd text chunkSize startPos = (text.length : Int) ∨
      chunkEnd text chunkSize startPos ≥ startPos + chunkSize - 100 := by
  simp only [chunkEnd]
  rw [if_pos h]
  split_ifs with h1 h2
  · obtain ⟨hp0, hpf, hpl, hpm, hpmin⟩ :=
      jsIndexOf_spec text paraPat (startPos + chunkSize - 100) h1.1
    right
    omega
  · obtain ⟨hq0, hqf, hql, hqm, hqmin⟩ :=
      jsIndexOf_spec text sentPat (startPos + chunkSize - 100) h2.1
    right
    omega
  · right
    omega

theorem splitLoop_zero (text : List Char) (chunkSize overlap s : Int) :
    splitLoop text chunkSize overlap 0 s =
      if s < (text.length : Int) then none else some [] := rfl

theorem splitLoop_succ (text : List Char) (chunkSize overlap : Int)
    (fuel : Nat) (s : Int) :
    splitLoop text chunkSize overlap (fuel + 1) s =
      if s < (text.length : Int) then
        if chunkEnd text chunkSize s - overlap ≥ (text.length : Int) ∨
            chunkEnd text chunkSize s = (text.length : Int) then
          some [jsSubstring text s (chunkEnd text chunkSize s)]
        else
          match splitLoop text chunkSize overlap fuel
              (chunkEnd text chunkSize s - overlap) with
          | none => none
          | some rest => some (jsSubstring text s (chunkEnd text chunkSize s) :: rest)
      else some [] := rfl

theorem chunkEnd_of_ge (text : List Char) (chunkSize startPos : Int)
    (h : (text.length : Int) ≤ startPos + chunkSize) :
    chunkEnd text chunkSize startPos = (text.length : Int) := by
  simp only [chunkEnd]
  rw [if_neg (by omega)]
  omega

theorem cexC1_stuck : ∀ fuel, splitLoop cexC1 50 0 fuel 10 = none := by
  intro fuel
  induction fuel with
  | zero =>
    rw [splitLoop_zero, if_pos (by decide)]
  | succ n ih =>
    rw [splitLoop_succ]
    rw [show chunkEnd cexC1 50 10 = 10 from by decide]
    rw [if_pos (by decide), if_neg (by decide)]
    rw [show (10 : Int) - 0 = 10 from by norm_num, ih]

theorem cexC1_none : ∀ fuel, splitTextIntoChunks cexC1 50 0 fuel = none := by
  intro fuel
  cases fuel with
  | zero =>
    rw [splitTextIntoChunks, splitLoop_zero, if_pos (by decide)]
  | succ n =>
    rw [splitTextIntoChunks, splitLoop_succ]
    rw [show chunkEnd cexC1 50 0 = 10 from by decide]
    rw [if_pos (by decide), if_neg (by decide)]
    rw [show (10 : Int) - 0 = 10 from by norm_num, cexC1_stuck n]

/-- C1 counterexample: the claim "splitTextIntoChunks terminates for every
text and every chunkSize > overlap ≥ 0" is false.  On `cexC1` with
`chunkSize = 50`, `overlap = 0` (which satisfy `chunkSize > overlap ≥ 0`),
the loop never exits: the paragraph-break snap keeps pulling the end cursor
back to index 10, the start cursor never advances, and the loop guard
`startPos >= text.length || endPos === text.length` never fires. -/
theorem C1_chunker_termination_counterexample :
    (0 : Int) ≤ 0 ∧ (0 : Int) < 50 ∧
      ¬ ∃ fuel, (splitTextIntoChunks cexC1 50 0 fuel).isSome = true := by
  refine ⟨le_refl 0, by norm_num, ?_⟩
  rintro ⟨fuel, hf⟩
  rw [cexC1_none fuel] at hf
  simp at hf

theorem splitLoop_total (text : List Char) (chunkSize overlap : Int)
    (_hov : 0 ≤ overlap) (hcs : overlap + 100 < chunkSize) :
    ∀ (fuel : Nat) (s : Int), (text.length : Int) - s < (fuel : Int) →
      (splitLoop text chunkSize overlap fuel s).isSome = true := by
  intro fuel
  induction fuel with
  | zero =>
    intro s h
    rw [splitLoop_zero, if_neg (by omega)]
    rfl
  | succ n ih =>
    intro s h
    rw [splitLoop_succ]
    by_cases hs : s < (text.length : Int)
    · rw [if_pos hs]
      by_cases hbr : chunkEnd text chunkSize s - overlap ≥ (text.length : Int) ∨
          chunkEnd text chunkSize s = (text.length : Int)
      · rw [if_pos hbr]; rfl
      · rw [if_neg hbr]
        push_neg at hbr
        obtain ⟨hb1, hb2⟩ := hbr
        have hsl : s + chunkSize < (text.length : Int) := by
          by_contra hc
          push_neg at hc
          exact hb2 (chunkEnd_of_ge text chunkSize s hc)
        rcases chunkEnd_cases text chunkSize s hsl with hlen | hge
        · exact absurd hlen hb2
        · have hrec := ih (chunkEnd text chunkSize s - overlap)
            (by push_cast at h ⊢; omega)
          cases hsp : splitLoop text chunkSize overlap n
              (chunkEnd text chunkSize s - overlap) with
          | none => rw [hsp] at hrec; simp at hrec
          | some rest => rfl
    · rw [if_neg hs]; rfl

/-- C1 (amended): chunker termination does not hold for every
`chunkSize > overlap ≥ 0` (see the counterexample), but it does hold
whenever `chunkSize > overlap + 100`: the boundary snap can pull the end
cursor at most 100 characters below `start + chunkSize`, so each iteration
advances the start cursor by at least `chunkSize - overlap - 100 ≥ 1`
characters and the loop exits after finitely many steps.  (The repository
always calls the chunker with `chunkSize = 1000`, `overlap = 200`, which
satisfies this.) -/
theorem C1_chunker_termination_amended (text : List Char)
    (chunkSize overlap : Int) (hov : 0 ≤ overlap)
    (hcs : overlap + 100 < chunkSize) :
    ∃ fuel, (splitTextIntoChunks text chunkSize overlap fuel).isSome = true :=
  ⟨text.length + 1, splitLoop_total text chunkSize overlap hov hcs
    (text.length + 1) 0 (by push_cast; omega)⟩

theorem C1_chunker_termination_witness :
    (0 : Int) ≤ 200 ∧ (200 : Int) + 100 < 1000 ∧
      ∃ fuel,
        (splitTextIntoChunks (List.replicate 5 'a') 1000 200 fuel).isSome = true :=
  ⟨by norm_num, by norm_num,
    C1_chunker_termination_amended (List.replicate 5 'a') 1000 200
      (by norm_num) (by norm_num)⟩

theorem jsSubstring_zero_len (text : List Char) :
    jsSubstring text 0 (text.length : Int) = text := by
  simp [jsSubstring]

/-- C5 counterexample: "for all texts shorter than chunkSize, chunking
produces exactly one chunk equal to the original text" fails on the empty
text: the `while (startPos < text.length)` guard is false immediately, so
`splitTextIntoChunks("", 10, 2)` terminates with zero chunks, not one. -/
theorem C5_short_text_counterexample :
    splitTextIntoChunks ([] : List Char) 10 2 1 = some [] ∧
      Option.map List.length (splitTextIntoChunks ([] : List Char) 10 2 1) ≠
        some 1 := by
  constructor
  · decide
  · decide

/-- C5 (amended): for every NON-EMPTY text shorter than `chunkSize`, the
chunker terminates (one unit of fuel suffices) and produces exactly one
chunk equal to the original text, for every overlap.  (The empty text is
the only exception: there the loop body never runs and zero chunks are
produced.) -/
theorem C5_short_text_amended (text : List Char) (chunkSize overlap : Int)
    (fuel : Nat) (hne : text ≠ []) (hlt : (text.length : Int) < chunkSize) :
    splitTextIntoChunks text chunkSize overlap (fuel + 1) = some [text] := by
  have hpos : 0 < text.length := List.length_pos.mpr hne
  have hend : chunkEnd text chunkSize 0 = (text.length : Int) :=
    chunkEnd_of_ge text chunkSize 0 (by omega)
  rw [splitTextIntoChunks, splitLoop_succ, hend,
    if_pos (by exact_mod_cast hpos), if_pos (Or.inr rfl),
    jsSubstring_zero_len]

theorem C5_short_text_witness :
    (['h', 'i'] : List Char) ≠ [] ∧
      ((['h', 'i'] : List Char).length : Int) < 10 ∧
      splitTextIntoChunks ['h', 'i'] 10 3 1 = some [['h', 'i']] :=
  ⟨by decide, by decide,
    C5_short_text_amended ['h', 'i'] 10 3 0 (by decide) (by decide)⟩

theorem jsSubstring_length (text : List Char) (a b : Int) :
    ((jsSubstring text a b).length : Int) =
      max (min (max a 0) (text.length : Int)) (min (max b 0) (text.length : Int))
        - min (min (max a 0) (text.length : Int))
            (min (max b 0) (text.length : Int)) := by
  simp only [jsSubstring, List.length_take, List.length_drop]
  omega

theorem chunkEnd_branches (text : List Char) (chunkSize startPos : Int) :
    (∃ p : Int, 0 ≤ p ∧ p ≤ (text.length : Int) ∧
        startPos + chunkSize - 100 ≤ p ∧ p < startPos + chunkSize + 100 ∧
        chunkEnd text chunkSize startPos = min p (text.length : Int)) ∨
    (∃ q : Int, 0 ≤ q ∧ q ≤ (text.length : Int) ∧
        startPos + chunkSize - 100 ≤ q ∧ q < startPos + chunkSize + 50 ∧
        chunkEnd text chunkSize startPos = min (q + 1) (text.length : Int)) ∨
    chunkEnd text chunkSize startPos =
      min (startPos + chunkSize) (text.length : Int) := by
  simp only [chunkEnd]
  split_ifs with h1 h2 h3
  · obtain ⟨hp0, hpf, hpl, _, _⟩ :=
      jsIndexOf_spec text paraPat (startPos + chunkSize - 100) h2.1
    exact Or.inl ⟨_, hp0, hpl, hpf, h2.2, rfl⟩
  · obtain ⟨hq0, hqf, hql, _, _⟩ :=
      jsIndexOf_spec text sentPat (startPos + chunkSize - 100) h3.1
    exact Or.inr (Or.inl ⟨_, hq0, hql, hqf, h3.2, rfl⟩)
  · exact Or.inr (Or.inr rfl)
  · exact Or.inr (Or.inr rfl)

theorem chunk_length_bound (text : List Char) (chunkSize startPos : Int)
    (hcs : 0 < chunkSize) (hs : startPos < (text.length : Int)) :
    (((jsSubstring text startPos (chunkEnd text chunkSize startPos)).length : Int))
      ≤ chunkSize + 99 := by
  rw [jsSubstring_length]
  rcases chunkEnd_branches text chunkSize startPos with
    ⟨p, hp0, hpl, hpf, hpu, he⟩ | ⟨q, hq0, hql, hqf, hqu, he⟩ | he
  · rw [he]; omega
  · rw [he]; omega
  · rw [he]; omega

theorem splitLoop_length_bound (text : List Char) (chunkSize overlap : Int)
    (hcs : 0 < chunkSize) :
    ∀ (fuel : Nat) (s : Int) (out : List (List Char)),
      splitLoop text chunkSize overlap fuel s = some out →
      ∀ c ∈ out, (c.length : Int) ≤ chunkSize + 99 := by
  intro fuel
  induction fuel with
  | zero =>
    intro s out h c hc
    rw [splitLoop_zero] at h
    by_cases hs : s < (text.length : Int)
    · rw [if_pos hs] at h; exact absurd h (by simp)
    · rw [if_neg hs] at h
      cases h
      simp at hc
  | succ n ih =>
    intro s out h c hc
    rw [splitLoop_succ] at h
    by_cases hs : s < (text.length : Int)
    · rw [if_pos hs] at h
      by_cases hbr : chunkEnd text chunkSize s - overlap ≥ (text.length : Int) ∨
          chunkEnd text chunkSize s = (text.length : Int)
      · rw [if_pos hbr] at h
        cases h
        simp only [List.mem_singleton] at hc
        subst hc
        exact chunk_length_bound text chunkSize s hcs hs
      · rw [if_neg hbr] at h
        cases hsp : splitLoop text chunkSize overlap n
            (chunkEnd text chunkSize s - overlap) with
        | none => rw [hsp] at h; exact absurd h (by simp)
        | some rest =>
          rw [hsp] at h
          cases h
          rcases List.mem_cons.mp hc with rfl | hrest
          · exact chunk_length_bound text chunkSize s hcs hs
          · exact ih _ rest hsp c hrest
    · rw [if_neg hs] at h
      cases h
      simp at hc

/-- C10: every chunk emitted by `splitTextIntoChunks` has length at most
`chunkSize + 99`, for every text, every `chunkSize > 0` and every
`overlap ≥ 0`: the paragraph-break snap can move the end cursor at most 99
characters past `start + chunkSize` (the snap condition is strict
`paragraphEnd < endPos + 100`) and the sentence snap at most 50. -/
theorem C10_chunk_size_upper_bound (text : List Char)
    (chunkSize overlap : Int) (fuel : Nat) (out : List (List Char))
    (hcs : 0 < chunkSize) (_hov : 0 ≤ overlap)
    (h : splitTextIntoChunks text chunkSize overlap fuel = some out) :
    ∀ c ∈ out, (c.length : Int) ≤ chunkSize + 99 :=
  splitLoop_length_bound text chunkSize overlap hcs fuel 0 out h

theorem C10_chunk_size_upper_bound_witness :
    (0 : Int) < 1 ∧ (0 : Int) ≤ 0 ∧
      splitTextIntoChunks ['a', 'b'] 1 0 2 = some [['a'], ['b']] ∧
      ∀ c ∈ [(['a'] : List Char), ['b']], (c.length : Int) ≤ 1 + 99 :=
  ⟨by norm_num, le_refl 0, by decide,
    C10_chunk_size_upper_bound ['a', 'b'] 1 0 2 [['a'], ['b']]
      (by norm_num) (le_refl 0) (by decide)⟩

theorem head_filter_sorted {l : List Nat} {pred : Nat → Bool} {p : Nat}
    (hs : l.Pairwise (· < ·)) (h : (l.filter pred).head? = some p) :
    pred p = true ∧ p ∈ l ∧ ∀ q ∈ l, pred q = true → p ≤ q := by
  induction l with
  | nil => simp at h
  | cons a t ih =>
    rw [List.pairwise_cons] at hs
    rw [List.filter_cons] at h
    by_cases ha : pred a
    · rw [if_pos ha] at h
      simp only [List.head?_cons, Option.some_inj] at h
      subst h
      refine ⟨ha, List.mem_cons_self _ _, ?_⟩
      intro q hq _
      rcases List.mem_cons.mp hq with rfl | hq'
      · exact le_refl _
      · exact le_of_lt (hs.1 q hq')
    · rw [if_neg ha] at h
      obtain ⟨h1, h2, h3⟩ := ih hs.2 h
      refine ⟨h1, List.mem_cons_of_mem _ h2, ?_⟩
      intro q hq hpq
      rcases List.mem_cons.mp hq with rfl | hq'
      · exact absurd hpq (by simpa using ha)
      · exact h3 q hq' hpq

theorem leastOccurGE_some {text pat : List Char} {start : Int} {p : Nat}
    (h : leastOccurGE text pat start = some p) :
    start ≤ (p : Int) ∧ matchAt text pat p = true ∧ p ≤ text.length ∧
      ∀ q : Nat, q ≤ text.length → start ≤ (q : Int) →
        matchAt text pat q = true → p ≤ q := by
  unfold leastOccurGE at h
  obtain ⟨h1, h2, h3⟩ := head_filter_sorted (List.pairwise_lt_range _) h
  simp only [Bool.and_eq_true, decide_eq_true_eq] at h1
  refine ⟨h1.1, h1.2, by have := List.mem_range.mp h2; omega, ?_⟩
  intro q hq hsq hmq
  exact h3 q (List.mem_range.mpr (by omega)) (by simp [hsq, hmq])

theorem leastOccurGE_none {text pat : List Char} {start : Int}
    (h : leastOccurGE text pat start = none) :
    ∀ q : Nat, q ≤ text.length → start ≤ (q : Int) →
      matchAt text pat q = false := by
  unfold leastOccurGE at h
  rw [List.head?_eq_none_iff, List.filter_eq_nil_iff] at h
  intro q hq hsq
  have := h q (List.mem_range.mpr (by omega))
  simp only [Bool.and_eq_true, decide_eq_true_eq, not_and] at this
  exact Bool.eq_false_iff.mpr (fun hm => this hsq hm)

theorem jsIndexOf_eq_least (text pat : List Char) (hp : pat ≠ []) (f : Int) :
    jsIndexOf text pat f =
      (match leastOccurGE text pat f with
       | some p => (p : Int)
       | none => -1) := by
  cases hl : leastOccurGE text pat f with
  | none =>
    unfold jsIndexOf
    cases hf : findFrom text pat f.toNat with
    | none => rfl
    | some j =>
      exfalso
      obtain ⟨h1, h2, h3, _⟩ := findFrom_sound text pat hf
      have hfj : f ≤ (j : Int) :=
        le_trans (Int.self_le_toNat f) (by exact_mod_cast h1)
      have := leastOccurGE_none hl j h2 hfj
      rw [h3] at this
      exact Bool.true_eq_false.mp this
  | some p =>
    obtain ⟨hp1, hp2, hp3, hp4⟩ := leastOccurGE_some hl
    unfold jsIndexOf
    cases hf : findFrom text pat f.toNat with
    | none =>
      exfalso
      have hfp : f.toNat ≤ p := Int.toNat_le.mpr hp1
      have := findFrom_none text pat hp hf hfp
      rw [hp2] at this
      exact Bool.true_eq_false.mp this
    | some j =>
      obtain ⟨h1, h2, h3, h4⟩ := findFrom_sound text pat hf
      have hfj : f ≤ (j : Int) :=
        le_trans (Int.self_le_toNat f) (by exact_mod_cast h1)
      have hpj : p ≤ j := hp4 j h2 hfj h3
      have hjp : j ≤ p := by
        by_contra hc
        push_neg at hc
        have := h4 p (Int.toNat_le.mpr hp1) hc
        rw [hp2] at this
        exact Bool.true_eq_false.mp this
      simp only [Option.some_inj]
      exact_mod_cast le_antisymm hjp hpj

theorem chunkEnd_eq_amendEnd (text : List Char) (chunkSize startPos : Int) :
    chunkEnd text chunkSize startPos = amendEnd text chunkSize startPos := by
  simp only [chunkEnd, amendEnd,
    jsIndexOf_eq_least text paraPat (by decide) (startPos + chunkSize - 100),
    jsIndexOf_eq_least text sentPat (by decide) (startPos + chunkSize - 100)]
  cases hp : leastOccurGE text paraPat (startPos + chunkSize - 100) <;>
    cases hq : leastOccurGE text sentPat (startPos + chunkSize - 100) <;>
      (dsimp only; split_ifs <;> omega)

set_option maxRecDepth 40000 in
/-- C3 counterexample: the claimed "snap to the NEAREST paragraph break
within end±100" is false.  On `cexC3` with `chunkSize = 150`, `start = 0`
the proposed end is 150 and the window holds breaks at 50 and at 149; the
nearest to the proposed end is 149 (`claimEnd` = 149), but the code snaps to
the FIRST break at or after `end − 100`, namely 50 (`chunkEnd` = 50), and
emits `[0, 50)` as the first chunk. -/
theorem C3_boundary_snap_counterexample :
    chunkEnd cexC3 150 0 = 50 ∧ claimEnd cexC3 150 0 = 149 ∧
      Option.map List.head? (splitTextIntoChunks cexC3 150 0 3) =
        some (some (List.replicate 50 'a')) ∧ (50 : Int) ≠ 149 := by
  refine ⟨by decide, by decide, by decide, by decide⟩

/-- C3 (amended): whenever the start cursor lies before the text's end, the
chunk the loop emits at that position is `text.substring(start, end)` where
the end cursor is determined by `amendEnd`: if the proposed end
`start + chunkSize` lies strictly before the text's end, the end snaps to
the FIRST paragraph break at or after `end−100` provided that break lies
strictly before `end+100`; otherwise to just after the first `". "` at or
after `end−100` provided it lies strictly before `end+50`; the end is then
clamped to the text length. -/
theorem C3_boundary_snap_amended (text : List Char) (chunkSize overlap : Int)
    (fuel : Nat) (s : Int) (out : List (List Char))
    (hs : s < (text.length : Int))
    (h : splitLoop text chunkSize overlap (fuel + 1) s = some out) :
    out.head? = some (jsSubstring text s (amendEnd text chunkSize s)) := by
  rw [← chunkEnd_eq_amendEnd]
  rw [splitLoop_succ, if_pos hs] at h
  by_cases hbr : chunkEnd text chunkSize s - overlap ≥ (text.length : Int) ∨
      chunkEnd text chunkSize s = (text.length : Int)
  · rw [if_pos hbr] at h
    cases h
    rfl
  · rw [if_neg hbr] at h
    cases hsp : splitLoop text chunkSize overlap fuel
        (chunkEnd text chunkSize s - overlap) with
    | none => rw [hsp] at h; exact absurd h (by simp)
    | some rest =>
      rw [hsp] at h
      cases h
      rfl

theorem C3_boundary_snap_witness :
    ((0 : Int) < ((['x', 'y'] : List Char).length : Int)) ∧
      splitLoop ['x', 'y'] 1 0 2 0 = some [['x'], ['y']] ∧
      ([['x'], ['y']] : List (List Char)).head? =
        some (jsSubstring ['x', 'y'] 0 (amendEnd ['x', 'y'] 1 0)) :=
  ⟨by decide, by decide,
    C3_boundary_snap_amended ['x', 'y'] 1 0 1 0 [['x'], ['y']]
      (by decide) (by decide)⟩

theorem jsSubstring_of_le (text : List Char) {a b : Int} (_h0 : 0 ≤ a)
    (hab : a ≤ b) (hbl : b ≤ (text.length : Int)) :
    jsSubstring text a b = (text.drop a.toNat).take (b.toNat - a.toNat) := by
  simp only [jsSubstring]
  rw [show (min (max a 0) (text.length : Int)).toNat = a.toNat from by omega,
    show (min (max b 0) (text.length : Int)).toNat = b.toNat from by omega,
    show min a.toNat b.toNat = a.toNat from by omega,
    show max a.toNat b.toNat = b.toNat from by omega]

theorem jsSubstring_append_drop (text : List Char) {a b : Int} (h0 : 0 ≤ a)
    (hab : a ≤ b) (hbl : b ≤ (text.length : Int)) :
    jsSubstring text a b ++ text.drop b.toNat = text.drop a.toNat := by
  rw [jsSubstring_of_le text h0 hab hbl]
  have h := List.drop_take_append_drop' text a.toNat (b.toNat - a.toNat)
  rwa [show b.toNat - a.toNat + a.toNat = b.toNat from by omega] at h

theorem drop_jsSubstring (text : List Char) {a b ov : Int} (h0 : 0 ≤ a)
    (hov : 0 ≤ ov) (hab : a + ov ≤ b) (hbl : b ≤ (text.length : Int)) :
    List.drop ov.toNat (jsSubstring text a b) = jsSubstring text (a + ov) b := by
  rw [jsSubstring_of_le text h0 (by omega) hbl,
    jsSubstring_of_le text (by omega) hab hbl,
    List.drop_take, List.drop_drop]
  rw [show a.toNat + ov.toNat = (a + ov).toNat from by omega,
    show b.toNat - a.toNat - ov.toNat = b.toNat - (a + ov).toNat from by omega]

theorem trap_step (text : List Char) (chunkSize overlap : Int)
    (_hov : 0 ≤ overlap) (hcs : overlap < chunkSize) (a : Int)
    (ha : a + chunkSize < (text.length : Int))
    (hbad : chunkEnd text chunkSize a ≤ a + overlap)
    (t : Int) (ht : t ≤ a) :
    chunkEnd text chunkSize t ≤ a + overlap := by
  have hlen : a + overlap < (text.length : Int) := by omega
  have hbad' : (if jsIndexOf text paraPat (a + chunkSize - 100) ≠ -1 ∧
        jsIndexOf text paraPat (a + chunkSize - 100) < a + chunkSize + 100 then
        jsIndexOf text paraPat (a + chunkSize - 100)
      else if jsIndexOf text sentPat (a + chunkSize - 100) ≠ -1 ∧
          jsIndexOf text sentPat (a + chunkSize - 100) < a + chunkSize + 50 then
        jsIndexOf text sentPat (a + chunkSize - 100) + 1
      else a + chunkSize) ≤ a + overlap := by
    have hb := hbad
    simp only [chunkEnd] at hb
    rw [if_pos ha] at hb
    omega
  have htlen : t + chunkSize < (text.length : Int) := by omega
  simp only [chunkEnd]
  rw [if_pos htlen]
  refine le_trans (min_le_left _ _) ?_
  split_ifs at hbad' with hap has <;> split_ifs with htp hts
  · -- paragraph-bad at a, paragraph taken at t
    obtain ⟨hP0, hPf, hPl, hPm, _⟩ :=
      jsIndexOf_spec text paraPat (a + chunkSize - 100) hap.1
    have hPt := jsIndexOf_min text paraPat (by decide) (t + chunkSize - 100)
      hPm (by rw [Int.toNat_of_nonneg hP0]; omega)
    rw [Int.toNat_of_nonneg hP0] at hPt
    have h1 := hPt.2
    omega
  · -- paragraph-bad at a, sentence taken at t
    obtain ⟨hP0, hPf, hPl, hPm, _⟩ :=
      jsIndexOf_spec text paraPat (a + chunkSize - 100) hap.1
    have hPt := jsIndexOf_min text paraPat (by decide) (t + chunkSize - 100)
      hPm (by rw [Int.toNat_of_nonneg hP0]; omega)
    rw [Int.toNat_of_nonneg hP0] at hPt
    push_neg at htp
    have h1 := htp hPt.1
    have h2 := hPt.2
    have h3 := hts.2
    omega
  · -- paragraph-bad at a, no snap at t
    obtain ⟨hP0, hPf, hPl, hPm, _⟩ :=
      jsIndexOf_spec text paraPat (a + chunkSize - 100) hap.1
    have hPt := jsIndexOf_min text paraPat (by decide) (t + chunkSize - 100)
      hPm (by rw [Int.toNat_of_nonneg hP0]; omega)
    rw [Int.toNat_of_nonneg hP0] at hPt
    push_neg at htp
    have h1 := htp hPt.1
    have h2 := hPt.2
    omega
  · -- sentence-bad at a, paragraph taken at t
    obtain ⟨hQ0, hQf, hQl, hQm, _⟩ :=
      jsIndexOf_spec text sentPat (a + chunkSize - 100) has.1
    push_neg at hap
    by_contra hc
    push_neg at hc
    obtain ⟨hPt0, hPtf, hPtl, hPtm, _⟩ :=
      jsIndexOf_spec text paraPat (t + chunkSize - 100) htp.1
    have hPa := jsIndexOf_min text paraPat (by decide) (a + chunkSize - 100)
      hPtm (by rw [Int.toNat_of_nonneg hPt0]; omega)
    rw [Int.toNat_of_nonneg hPt0] at hPa
    have h2 := hap hPa.1
    have h3 := hPa.2
    have h4 := htp.2
    omega
  · -- sentence-bad at a, sentence taken at t
    obtain ⟨hQ0, hQf, hQl, hQm, _⟩ :=
      jsIndexOf_spec text sentPat (a + chunkSize - 100) has.1
    have hQt := jsIndexOf_min text sentPat (by decide) (t + chunkSize - 100)
      hQm (by rw [Int.toNat_of_nonneg hQ0]; omega)
    rw [Int.toNat_of_nonneg hQ0] at hQt
    have h1 := hQt.2
    omega
  · -- sentence-bad at a, no snap at t
    obtain ⟨hQ0, hQf, hQl, hQm, _⟩ :=
      jsIndexOf_spec text sentPat (a + chunkSize - 100) has.1
    have hQt := jsIndexOf_min text sentPat (by decide) (t + chunkSize - 100)
      hQm (by rw [Int.toNat_of_nonneg hQ0]; omega)
    rw [Int.toNat_of_nonneg hQ0] at hQt
    push_neg at hts
    have h1 := hts hQt.1
    have h2 := hQt.2
    omega
  · omega
  · omega
  · omega

theorem splitLoop_stuck (text : List Char) (chunkSize overlap : Int)
    (hov : 0 ≤ overlap) (hcs : overlap < chunkSize) (a : Int)
    (ha : a + chunkSize < (text.length : Int))
    (hbad : chunkEnd text chunkSize a ≤ a + overlap) :
    ∀ (fuel : Nat) (t : Int), t ≤ a →
      splitLoop text chunkSize overlap fuel t = none := by
  intro fuel
  induction fuel with
  | zero =>
    intro t ht
    rw [splitLoop_zero, if_pos (by omega)]
  | succ n ih =>
    intro t ht
    have het := trap_step text chunkSize overlap hov hcs a ha hbad t ht
    have hel : chunkEnd text chunkSize t < (text.length : Int) := by omega
    rw [splitLoop_succ, if_pos (by omega), if_neg (by omega),
      ih (chunkEnd text chunkSize t - overlap) (by omega)]

theorem splitLoop_rec (text : List Char) (chunkSize overlap : Int)
    (hov : 0 ≤ overlap) (hcs : overlap < chunkSize) :
    ∀ (fuel : Nat) (s : Int) (out : List (List Char)),
      0 ≤ s → s < (text.length : Int) →
      splitLoop text chunkSize overlap fuel s = some out →
      CursorChain text chunkSize overlap s out ∧
        reconstruct overlap out = text.drop s.toNat ∧
        (out.map (List.drop overlap.toNat)).flatten =
          text.drop (s + overlap).toNat := by
  intro fuel
  induction fuel with
  | zero =>
    intro s out h0 hs h
    rw [splitLoop_zero, if_pos hs] at h
    exact absurd h (by simp)
  | succ n ih =>
    intro s out h0 hs h
    rw [splitLoop_succ, if_pos hs] at h
    by_cases hbr : chunkEnd text chunkSize s - overlap ≥ (text.length : Int) ∨
        chunkEnd text chunkSize s = (text.length : Int)
    · rw [if_pos hbr] at h
      cases h
      have hle := chunkEnd_le_length text chunkSize s
      have hee : chunkEnd text chunkSize s = (text.length : Int) := by
        rcases hbr with h1 | h2
        · omega
        · exact h2
      refine ⟨⟨rfl, trivial⟩, ?_, ?_⟩
      · simp only [reconstruct, List.map_nil, List.flatten_nil, List.append_nil]
        rw [hee]
        have happ := jsSubstring_append_drop text h0 (by omega) (le_refl _)
        simpa using happ
      · simp only [List.map_cons, List.map_nil, List.flatten_cons,
          List.flatten_nil, List.append_nil]
        rw [hee]
        by_cases hcase : s + overlap ≤ (text.length : Int)
        · rw [drop_jsSubstring text h0 hov hcase (le_refl _)]
          have happ := jsSubstring_append_drop text
            (by omega : (0 : Int) ≤ s + overlap) hcase (le_refl _)
          simpa using happ
        · push_neg at hcase
          have h1 : (jsSubstring text s ((text.length : Int))).length ≤
              overlap.toNat := by
            rw [jsSubstring_of_le text h0 (by omega) (le_refl _)]
            simp only [List.length_take, List.length_drop]
            omega
          rw [List.drop_eq_nil_of_le h1]
          exact (List.drop_eq_nil_of_le (by omega)).symm
    · rw [if_neg hbr] at h
      push_neg at hbr
      obtain ⟨hb1, hb2⟩ := hbr
      cases hsp : splitLoop text chunkSize overlap n
          (chunkEnd text chunkSize s - overlap) with
      | none => rw [hsp] at h; exact absurd h (by simp)
      | some rest =>
        rw [hsp] at h
        cases h
        have hprog : s < chunkEnd text chunkSize s - overlap := by
          by_contra hc
          push_neg at hc
          have hsl : s + chunkSize < (text.length : Int) := by
            by_contra hc2
            push_neg at hc2
            exact hb2 (chunkEnd_of_ge text chunkSize s hc2)
          have hstuck := splitLoop_stuck text chunkSize overlap hov hcs s hsl
            (by omega) n (chunkEnd text chunkSize s - overlap) (by omega)
          rw [hstuck] at hsp
          exact absurd hsp (by simp)
        obtain ⟨hchain, hrec, hjoin⟩ := ih (chunkEnd text chunkSize s - overlap)
          rest (by omega) (by omega) hsp
        rw [show chunkEnd text chunkSize s - overlap + overlap =
          chunkEnd text chunkSize s from by omega] at hjoin
        have hle := chunkEnd_le_length text chunkSize s
        refine ⟨⟨rfl, hchain⟩, ?_, ?_⟩
        · simp only [reconstruct]
          rw [hjoin]
          exact jsSubstring_append_drop text h0 (by omega) hle
        · simp only [List.map_cons, List.flatten_cons]
          rw [hjoin, drop_jsSubstring text h0 hov (by omega) hle]
          exact jsSubstring_append_drop text (by omega) (by omega) hle

/-- C4: for every run of `splitTextIntoChunks` that terminates (modelled:
returns `some` for the given fuel) with `0 ≤ overlap < chunkSize` (the
contract bounds of §4.1), every emitted chunk is the contiguous substring
`[start, end)` at its cursor and each next start is the previous end minus
`overlap` (`CursorChain`), and concatenating the first chunk with every
later chunk minus its first `overlap` characters reconstructs the whole
original text — no character is dropped between successive start cursors. -/
theorem C4_no_loss_reconstruction (text : List Char) (chunkSize overlap : Int)
    (fuel : Nat) (out : List (List Char)) (hov : 0 ≤ overlap)
    (hcs : overlap < chunkSize)
    (h : splitTextIntoChunks text chunkSize overlap fuel = some out) :
    CursorChain text chunkSize overlap 0 out ∧
      reconstruct overlap out = text := by
  rw [splitTextIntoChunks] at h
  by_cases hlen : 0 < text.length
  · have hres := splitLoop_rec text chunkSize overlap hov hcs fuel 0 out
      (le_refl 0) (by exact_mod_cast hlen) h
    exact ⟨hres.1, by simpa using hres.2.1⟩
  · have htext : text = [] := by
      cases text with
      | nil => rfl
      | cons a tl => simp at hlen
    subst htext
    have hout : out = [] := by
      cases fuel with
      | zero =>
        rw [splitLoop_zero, if_neg (by simp)] at h
        exact (Option.some_inj.mp h).symm
      | succ n =>
        rw [splitLoop_succ, if_neg (by simp)] at h
        exact (Option.some_inj.mp h).symm
    subst hout
    exact ⟨trivial, rfl⟩

theorem C4_no_loss_reconstruction_witness :
    (0 : Int) ≤ 1 ∧ (1 : Int) < 2 ∧
      splitTextIntoChunks ['a', 'b', 'c'] 2 1 5 = some [['a', 'b'], ['b', 'c']] ∧
      (CursorChain ['a', 'b', 'c'] 2 1 0 [['a', 'b'], ['b', 'c']] ∧
        reconstruct 1 [['a', 'b'], ['b', 'c']] = ['a', 'b', 'c']) :=
  ⟨by norm_num, by norm_num, by decide,
    C4_no_loss_reconstruction ['a', 'b', 'c'] 2 1 5 [['a', 'b'], ['b', 'c']]
      (by norm_num) (by norm_num) (by decide)⟩

/-- C7: deleting a document id that is present returns `true`, afterwards
zero chunks owned by that document id remain (and messages are untouched);
deleting an absent id returns `false` and removes nothing — the store is
returned unchanged. -/
theorem C7_delete_document_cascade (st : Store) (id : Nat) :
    (st.documents.any (fun d => d.id == id) = true →
      (deleteDocument st id).1 = true ∧
      (deleteDocument st id).2.chunks.filter (fun c => c.documentId == id) = [] ∧
      (deleteDocument st id).2.messages = st.messages) ∧
    (st.documents.any (fun d => d.id == id) = false →
      deleteDocument st id = (false, st)) := by
  constructor
  · intro hp
    unfold deleteDocument
    rw [if_pos hp]
    refine ⟨rfl, ?_, rfl⟩
    rw [List.filter_filter]
    apply List.filter_eq_nil_iff.mpr
    intro c _
    simp
  · intro hn
    unfold deleteDocument
    rw [if_neg (by simp [hn])]

theorem C7_delete_document_cascade_witness :
    ((Store.mk 1 [⟨0, [], [], 3, 0⟩] [⟨0, [], none, 0⟩] [] 0).documents.any
        (fun d => d.id == 0) = true) ∧
      ((deleteDocument (Store.mk 1 [⟨0, [], [], 3, 0⟩] [⟨0, [], none, 0⟩] [] 0)
          0).1 = true ∧
        (deleteDocument (Store.mk 1 [⟨0, [], [], 3, 0⟩] [⟨0, [], none, 0⟩] [] 0)
            0).2.chunks.filter (fun c => c.documentId == 0) = [] ∧
        (deleteDocument (Store.mk 1 [⟨0, [], [], 3, 0⟩] [⟨0, [], none, 0⟩] [] 0)
            0).2.messages =
          (Store.mk 1 [⟨0, [], [], 3, 0⟩] [⟨0, [], none, 0⟩] [] 0).messages) :=
  ⟨by decide,
    (C7_delete_document_cascade
      (Store.mk 1 [⟨0, [], [], 3, 0⟩] [⟨0, [], none, 0⟩] [] 0) 0).1 (by decide)⟩

/-- C6: the user message is persisted (with the current clock as its
timestamp) before the embedding and generation calls; when the embedding
call or the generator call fails, the whole chat turn fails (`none` reply,
handler responds 500) and no assistant message is persisted — the store's
message list ends exactly with the already-persisted user message. -/
theorem C6_chat_failure_asymmetry (sim : List ℚ → List ℚ → ℚ)
    (embedResult : Option (List ℚ)) (genResult : Option (List Char))
    (st : Store) (content : List Char) (hc : content ≠ [])
    (hfail : embedResult = none ∨ genResult = none) :
    (chatTurn sim embedResult genResult st content).2 = none ∧
    (chatTurn sim embedResult genResult st content).1.messages =
      st.messages ++ [⟨("user").toList, content, st.clock⟩] := by
  unfold chatTurn
  rw [if_neg hc]
  rcases hfail with h | h
  · subst h
    exact ⟨rfl, rfl⟩
  · subst h
    cases embedResult with
    | none => exact ⟨rfl, rfl⟩
    | some e => exact ⟨rfl, rfl⟩

theorem C6_chat_failure_asymmetry_witness :
    (('h' :: ['i']) ≠ ([] : List Char)) ∧
      ((none : Option (List ℚ)) = none ∨
        (some (('o' :: ['k'])) : Option (List Char)) = none) ∧
      ((chatTurn (fun _ _ => 0) none (some ('o' :: ['k']))
          (Store.mk 0 [] [] [] 0) ('h' :: ['i'])).2 = none ∧
        (chatTurn (fun _ _ => 0) none (some ('o' :: ['k']))
            (Store.mk 0 [] [] [] 0) ('h' :: ['i'])).1.messages =
          (Store.mk 0 [] [] [] 0).messages ++
            [⟨("user").toList, 'h' :: ['i'], (Store.mk 0 [] [] [] 0).clock⟩]) :=
  ⟨by decide, Or.inl rfl,
    C6_chat_failure_asymmetry (fun _ _ => 0) none (some ('o' :: ['k']))
      (Store.mk 0 [] [] [] 0) ('h' :: ['i']) (by decide) (Or.inl rfl)⟩

/-- C9: when text extraction fails during upload processing — in particular
for any extension outside {pdf, docx, txt, md}, where the code throws
`Unsupported file type`, or when the extractor for a supported type throws —
the upload aborts before the chunker runs: the error surfaces to the caller
(`none` result document), the store is returned unchanged (no Document, no
Chunk persisted), and the temporary upload artifact is removed. -/
theorem C9_extraction_failure_atomicity (extractResult : Option (List Char))
    (fuel : Nat) (ext name : List Char) (fsize : Nat) (st : Store)
    (h : validExtensions.contains ext = false ∨ extractResult = none) :
    processFile extractResult fuel ext name fsize st = some (none, st, true) := by
  unfold processFile
  have hex : (if validExtensions.contains ext then extractResult else none) =
      none := by
    rcases h with h | h
    · rw [if_neg (by rw [h]; simp)]
    · subst h
      split_ifs <;> rfl
  rw [hex]

theorem C9_extraction_failure_atomicity_witness :
    (validExtensions.contains ((".exe").toList) = false ∨
      (some (('t' :: ['x'])) : Option (List Char)) = none) ∧
      processFile (some ('t' :: ['x'])) 9 ((".exe").toList)
          (("virus.exe").toList) 10 (Store.mk 0 [] [] [] 0) =
        some (none, Store.mk 0 [] [] [] 0, true) :=
  ⟨Or.inl (by decide),
    C9_extraction_failure_atomicity (some ('t' :: ['x'])) 9 ((".exe").toList)
      (("virus.exe").toList) 10 (Store.mk 0 [] [] [] 0)
      (Or.inl (by decide))⟩

theorem scoreInsert_mem {z x : DocumentChunk × ℚ} :
    ∀ {l}, z ∈ scoreInsert x l ↔ z = x ∨ z ∈ l := by
  intro l
  induction l with
  | nil => simp [scoreInsert]
  | cons y t ih =>
    simp only [scoreInsert]
    split_ifs with h
    · simp [List.mem_cons]
    · simp only [List.mem_cons, ih]
      tauto

theorem scoreInsert_pairwise {x : DocumentChunk × ℚ}
    {l : List (DocumentChunk × ℚ)}
    (h : l.Pairwise (fun a b => b.2 ≤ a.2)) :
    (scoreInsert x l).Pairwise (fun a b => b.2 ≤ a.2) := by
  induction l with
  | nil => simp [scoreInsert]
  | cons y t ih =>
    rw [List.pairwise_cons] at h
    simp only [scoreInsert]
    split_ifs with hxy
    · rw [List.pairwise_cons]
      constructor
      · intro z hz
        rcases List.mem_cons.mp hz with rfl | hz'
        · exact hxy
        · exact le_trans (h.1 z hz') hxy
      · rw [List.pairwise_cons]
        exact h
    · rw [List.pairwise_cons]
      constructor
      · intro z hz
        rcases scoreInsert_mem.mp hz with rfl | hz'
        · exact le_of_lt (lt_of_not_le hxy)
        · exact h.1 z hz'
      · exact ih h.2

theorem scoreSort_pairwise (l : List (DocumentChunk × ℚ)) :
    (scoreSort l).Pairwise (fun a b => b.2 ≤ a.2) := by
  induction l with
  | nil => simp [scoreSort]
  | cons a t ih =>
    simp only [scoreSort, List.foldr_cons]
    exact scoreInsert_pairwise ih

theorem scoreSort_mem {z : DocumentChunk × ℚ} :
    ∀ {l}, z ∈ scoreSort l → z ∈ l := by
  intro l
  induction l with
  | nil => simp [scoreSort]
  | cons a t ih =>
    intro h
    simp only [scoreSort, List.foldr_cons] at h
    rcases scoreInsert_mem.mp h with rfl | h'
    · exact List.mem_cons_self _ _
    · exact List.mem_cons_of_mem _ (ih h')

/-- C2: for every stored chunk set, query vector and limit, and for every
similarity function (the cosine implementation lives in src/lib/utils.js,
outside the provided sources), `searchSimilarChunks` returns at most
`limit` chunks, never returns a chunk whose embedding is absent, and the
returned sequence is ordered by non-increasing similarity score against
the query vector. -/
theorem C2_ranker_postconditions (sim : List ℚ → List ℚ → ℚ) (st : Store)
    (embedding : List ℚ) (limit : Nat) :
    (searchSimilarChunks sim st embedding limit).length ≤ limit ∧
    (∀ c ∈ searchSimilarChunks sim st embedding limit, c.embedding ≠ none) ∧
    (searchSimilarChunks sim st embedding limit).Pairwise
      (fun c1 c2 => sim embedding (c2.embedding.getD []) ≤
        sim embedding (c1.embedding.getD [])) := by
  refine ⟨?_, ?_, ?_⟩
  · simp only [searchSimilarChunks, List.length_map, List.length_take]
    omega
  · intro c hc
    simp only [searchSimilarChunks, List.mem_map] at hc
    obtain ⟨p, hp, rfl⟩ := hc
    have hp2 := scoreSort_mem (List.mem_of_mem_take hp)
    rw [List.mem_map] at hp2
    obtain ⟨c', hc', heq⟩ := hp2
    rw [← heq]
    have := (List.mem_filter.mp hc').2
    simpa [Option.isSome_iff_ne_none] using this
  · simp only [searchSimilarChunks]
    rw [List.pairwise_map]
    have hs := scoreSort_pairwise
      ((st.chunks.filter (fun c => c.embedding.isSome)).map
        (fun c => (c, sim embedding (c.embedding.getD []))))
    have hp := hs.sublist (List.take_sublist limit _)
    have hform : ∀ p ∈ (scoreSort
        ((st.chunks.filter (fun c => c.embedding.isSome)).map
          (fun c => (c, sim embedding (c.embedding.getD []))))).take limit,
        p.2 = sim embedding (p.1.embedding.getD []) := by
      intro p hmem
      have := scoreSort_mem (List.mem_of_mem_take hmem)
      rw [List.mem_map] at this
      obtain ⟨c', _, heq⟩ := this
      rw [← heq]
    apply List.Pairwise.imp_of_mem ?_ hp
    intro a b ha hb hab
    rw [← hform a ha, ← hform b hb]
    exact hab

theorem msgInsert_mem {z m : Message} :
    ∀ {l}, z ∈ msgInsert m l ↔ z = m ∨ z ∈ l := by
  intro l
  induction l with
  | nil => simp [msgInsert]
  | cons y t ih =>
    simp only [msgInsert]
    split_ifs with h
    · simp [List.mem_cons]
    · simp only [List.mem_cons, ih]
      tauto

theorem msgInsert_pairwise {m : Message} {l : List Message}
    (h : l.Pairwise (fun m1 m2 => m1.createdAt ≤ m2.createdAt)) :
    (msgInsert m l).Pairwise (fun m1 m2 => m1.createdAt ≤ m2.createdAt) := by
  induction l with
  | nil => simp [msgInsert]
  | cons y t ih =>
    rw [List.pairwise_cons] at h
    simp only [msgInsert]
    split_ifs with hmy
    · rw [List.pairwise_cons]
      constructor
      · intro z hz
        rcases List.mem_cons.mp hz with rfl | hz'
        · exact hmy
        · exact le_trans hmy (h.1 z hz')
      · rw [List.pairwise_cons]
        exact h
    · rw [List.pairwise_cons]
      constructor
      · intro z hz
        rcases msgInsert_mem.mp hz with rfl | hz'
        · exact le_of_lt (lt_of_not_le hmy)
        · exact h.1 z hz'
      · exact ih h.2

theorem getMessages_pairwise (st : Store) :
    (getMessages st).Pairwise (fun m1 m2 => m1.createdAt ≤ m2.createdAt) := by
  unfold getMessages
  induction st.messages with
  | nil => simp
  | cons a t ih =>
    rw [List.foldr_cons]
    exact msgInsert_pairwise ih

theorem excerpts_infix (c : DocumentChunk) :
    ∀ (l : List DocumentChunk) (i : Nat), c ∈ l →
      ∃ pre post, excerpts i l = pre ++ c.content ++ post := by
  intro l
  induction l with
  | nil =>
    intro i h
    simp at h
  | cons a t ih =>
    intro i h
    rcases List.mem_cons.mp h with rfl | h'
    · refine ⟨excerptPre (i + 1), ("\n\n").toList ++ excerpts (i + 1) t, ?_⟩
      simp [excerpts, List.append_assoc]
    · obtain ⟨pre, post, hp⟩ := ih (i + 1) h'
      refine ⟨excerptPre (i + 1) ++ a.content ++ ("\n\n").toList ++ pre, post,
        ?_⟩
      simp [excerpts, hp, List.append_assoc]

/-- C8: `generateChatResponse` puts the system message first, followed by
the caller-supplied conversation unchanged; with zero retrieved chunks the
system instruction is exactly the "can only answer from uploaded documents,
decline outside knowledge" text; with at least one chunk it begins with the
strict grounding header and contains every retrieved chunk's content; and
the conversation history loaded by `getMessages` is in chronological
(non-decreasing `createdAt`) order. -/
theorem C8_grounding_prompt (chunks : List DocumentChunk)
    (msgs : List (List Char × List Char)) (st : Store) :
    formattedMessages chunks msgs = (systemRole, contextText chunks) :: msgs ∧
    (chunks = [] → contextText chunks = noDocsInstruction) ∧
    (chunks ≠ [] → ∃ t, contextText chunks = strictHeader ++ t) ∧
    (∀ c ∈ chunks, ∃ pre post,
      contextText chunks = pre ++ c.content ++ post) ∧
    (getMessages st).Pairwise (fun m1 m2 => m1.createdAt ≤ m2.createdAt) := by
  have hpos : chunks ≠ [] → chunks.length > 0 := by
    intro h
    cases chunks with
    | nil => exact absurd rfl h
    | cons a t => simp
  refine ⟨rfl, ?_, ?_, ?_, getMessages_pairwise st⟩
  · intro h
    subst h
    rfl
  · intro h
    refine ⟨excerpts 0 chunks, ?_⟩
    rw [contextText, if_pos (hpos h)]
  · intro c hc
    have hne : chunks ≠ [] := by
      intro he
      subst he
      simp at hc
    obtain ⟨pre, post, hp⟩ := excerpts_infix c chunks 0 hc
    refine ⟨strictHeader ++ pre, post, ?_⟩
    rw [contextText, if_pos (hpos hne), hp]
    simp [List.append_assoc]

theorem C8_grounding_prompt_witness :
    ∃ pre post,
      contextText [⟨0, 'h' :: ['i'], some [1], 0⟩] =
        pre ++ ('h' :: ['i']) ++ post :=
  (C8_grounding_prompt [⟨0, 'h' :: ['i'], some [1], 0⟩] []
      (Store.mk 0 [] [] [] 0)).2.2.2.1
    ⟨0, 'h' :: ['i'], some [1], 0⟩ (by simp)

end Chatbot
